import Mathlib

/-!
Verification development for the `cuniq` line-cardinality engine.

Bytes are modelled as natural numbers below 256 where it matters; lines are
`List Nat`.  The keyed 64-bit hash (ahash / std RandomState) is opaque to the
library code, so it is modelled as an arbitrary function `List Nat → Nat`
together with the hypothesis that its outputs fit in 64 bits where that is
needed.  Machine integers (`usize`, `u64`, `u32`) are modelled as `Nat` with
explicit 64-bit bounds; fuel-limited recursions mirror the fixed 64-bit width
of the Rust integer intrinsics (`count_ones`, `ilog2`, `leading_zeros`).
-/

namespace Cuniq

/-! ## Tokenizer: `CountUnique::count_unique_in_bytes` (line_cardinality/src/lib.rs)

The `memchr` branch walks the byte slice, emitting the segment before every
`\n` and finally the trailing segment when it is non-empty (`start < len`).
`tokenize` is the same computation phrased recursively on the head byte: a
leading `\n` closes the (possibly empty) current segment; any other byte is
prepended to the first segment of the remainder, materialising the trailing
segment exactly when it is non-empty. -/

def tokenize : List Nat → List (List Nat)
  | [] => []
  | b :: rest =>
    if b = 10 then [] :: tokenize rest
    else
      match tokenize rest with
      | [] => [[b]]
      | t :: ts => (b :: t) :: ts

/-- Spec-side segmentation: the byte-sequences between `\n` boundaries
(`List.splitOn 10` keeps a zero-length tail after a final `\n`), with that
zero-length tail dropped and a trailing non-terminated segment kept. -/
def specSegments (bytes : List Nat) : List (List Nat) :=
  let parts := bytes.splitOn 10
  if parts.getLast? = some [] then parts.dropLast else parts

/-! ## Exact estimator: `HashingLineCounter` (count_unique_impl/hashing.rs)

The non-reporting instance `HashingLineCounter<(), M>` keeps a hashbrown map
whose keys are the owned lines and a separate `count` field.  `count_line`
does a raw-entry lookup and, only when the key is absent, inserts it and
increments `count`.  The map is modelled by its key list in insertion
order. -/

structure ExactState where
  mapKeys : List (List Nat)
  count : Nat
deriving DecidableEq

def ExactState.empty : ExactState := ⟨[], 0⟩

def exactCountLine (s : ExactState) (line : List Nat) : ExactState :=
  if line ∈ s.mapKeys then s else ⟨s.mapKeys ++ [line], s.count + 1⟩

def exactRun (s : ExactState) (lines : List (List Nat)) : ExactState :=
  lines.foldl exactCountLine s

/-- `count_unique_in_bytes` for the Exact estimator: tokenize, then feed each
line to `count_line`. -/
def exactCountUniqueInBytes (s : ExactState) (bytes : List Nat) : ExactState :=
  exactRun s (tokenize bytes)

/-! ## NearExact estimator: `InexactHashingLineCounter`
(count_unique_impl/hashing_inexact.rs)

`count_line` hashes the line and inserts the 64-bit hash value itself into a
`HashTable<u64>` (equality is hash equality, rehash is the identity); `count`
is incremented exactly on insertion.  The table is modelled by the list of
stored hashes in insertion order. -/

structure NearExactState where
  hashes : List Nat
  count : Nat
deriving DecidableEq

def NearExactState.empty : NearExactState := ⟨[], 0⟩

def nearCountLine (hash : List Nat → Nat) (s : NearExactState) (line : List Nat) :
    NearExactState :=
  if hash line ∈ s.hashes then s else ⟨s.hashes ++ [hash line], s.count + 1⟩

def nearRun (hash : List Nat → Nat) (s : NearExactState) (lines : List (List Nat)) :
    NearExactState :=
  lines.foldl (nearCountLine hash) s

/-! ## 64-bit integer intrinsics

Rust's `usize`/`u64` intrinsics are total functions on 64-bit words.  They are
modelled by fuel-limited recursions with fuel 64 (the word width), which agree
with the mathematical operations on inputs below `2^64` and are structurally
recursive, hence kernel-evaluable. -/

/-- Binary digit sum, fuel-limited to the 64 bits of a word. -/
def countOnesAux : Nat → Nat → Nat
  | 0, _ => 0
  | fuel + 1, n => n % 2 + countOnesAux fuel (n / 2)

/-- `usize::count_ones` on a 64-bit word. -/
def count_ones (n : Nat) : Nat := countOnesAux 64 n

/-- `usize::is_power_of_two`: `count_ones(self) == 1`. -/
def is_power_of_two (n : Nat) : Bool := count_ones n == 1

/-- Floor base-2 logarithm, fuel-limited to the 64 bits of a word. -/
def log2Aux : Nat → Nat → Nat
  | 0, _ => 0
  | fuel + 1, n => if 2 ≤ n then log2Aux fuel (n / 2) + 1 else 0

/-- `usize::ilog2` on a 64-bit word (`ilog2 0` is unreachable in the code). -/
def ilog2 (n : Nat) : Nat := log2Aux 64 n

/-- Number of binary digits of a 64-bit word (`0` for `0`). -/
def bitLen (n : Nat) : Nat := if n = 0 then 0 else ilog2 n + 1

/-- `u64::leading_zeros` / `usize::leading_zeros` on a 64-bit word. -/
def leading_zeros (n : Nat) : Nat := 64 - bitLen n

/-! ## HyperLogLog estimator (count_unique_impl/hyperloglog.rs) -/

/-- `Error` with `Cause::Size` as produced by `Error::hyper_log_log`; only the
offending size is retained (the message is a formatted string). -/
structure SizeError where
  size : Nat
deriving DecidableEq

structure SizeInfo where
  bits : Nat
  shift_bits : Nat
  mask : Nat
deriving DecidableEq

/-- `check_size`: reject a register count that is not a power of two or is
below 16; otherwise derive `bits = ilog2 size`, `shift_bits = 64 - bits` and
`mask = 0xFFFFFFFFFFFFFFFF >> bits`. -/
def check_size (size : Nat) : Except SizeError SizeInfo :=
  if ¬ is_power_of_two size then
    Except.error ⟨size⟩
  else if size < 16 then
    Except.error ⟨size⟩
  else
    let bits := ilog2 size
    Except.ok ⟨bits, 64 - bits, (2 ^ 64 - 1) >>> bits⟩

structure HLLState where
  size : Nat
  bits : Nat
  shift_bits : Nat
  mask : Nat
  counters : List Nat
deriving DecidableEq

/-- `HyperLogLog::with_capacity` (the `with_line_mapper_and_capacity` variant
builds the identical state): run `check_size`, then allocate `size` zeroed
one-byte registers. -/
def with_capacity (size : Nat) : Except SizeError HLLState :=
  match check_size size with
  | Except.error e => Except.error e
  | Except.ok info =>
      Except.ok ⟨size, info.bits, info.shift_bits, info.mask, List.replicate size 0⟩

/-- `DEFAULT_SIZE` used by `HyperLogLog::new` / `with_line_mapper`. -/
def DEFAULT_SIZE : Nat := 65536

/-- `left_bits`: the top `bits` bits of the hash. -/
def left_bits (s : HLLState) (hash : Nat) : Nat := hash >>> s.shift_bits

/-- `right_bits`: the hash with the top `bits` bits cleared. -/
def right_bits (s : HLLState) (hash : Nat) : Nat := hash &&& s.mask

/-- `HyperLogLog::count_line`: bucket by the top bits, take
`leading_zeros(right_bits(h)) + 1 - bits`, and keep the register maximum.
(`List.set` leaves the list unchanged out of bounds; the Rust index is always
in bounds because the hash fits in 64 bits.) -/
def hllCountLine (hash : List Nat → Nat) (s : HLLState) (line : List Nat) : HLLState :=
  let h := hash line
  let index := left_bits s h
  let zero_count := leading_zeros (right_bits s h) + 1 - s.bits
  { s with counters := s.counters.set index (max (s.counters.getD index 0) zero_count) }

def hllRun (hash : List Nat → Nat) (s : HLLState) (lines : List (List Nat)) : HLLState :=
  lines.foldl (hllCountLine hash) s

/-- `HyperLogLog::reset`: `counters.fill(0)` zeroes every register in place. -/
def hllReset (s : HLLState) : HLLState :=
  { s with counters := List.replicate s.counters.length 0 }

/-- `magic_bias_constant`, "lifted straight from wikipedia". -/
noncomputable def magic_bias_constant (size : Nat) : ℝ :=
  if size = 16 then 0.673
  else if size = 32 then 0.697
  else if size = 64 then 0.709
  else 0.7213 / (1 + 1.079 / (size : ℝ))

open Classical in
/-- `HyperLogLog::count`, with `f64` idealised as `ℝ`: harmonic sum of
`2^(-counter)`, raw estimate `α · m · m / sum`, a linear-counting fallback
below `5m/2` when some register is zero, and `(x + 0.5) as usize`
round-to-nearest (`Nat.floor` truncates toward zero and clamps negatives,
as the Rust cast does). -/
noncomputable def hllCount (s : HLLState) : Nat :=
  let sum : ℝ := (s.counters.map (fun (value : Nat) => (2 : ℝ) ^ (-(value : ℤ)))).sum
  let sumInv := 1 / sum
  let size_float : ℝ := (s.size : ℝ)
  let count : ℝ := magic_bias_constant s.size * size_float * size_float * sumInv
  if count < size_float * 5 / 2 then
    let zeroed_counters := (s.counters.filter (fun value => value = 0)).length
    if zeroed_counters = 0 then
      ⌊count + 0.5⌋₊
    else
      ⌊size_float * Real.log (size_float / (zeroed_counters : ℝ)) + 0.5⌋₊
  else
    ⌊count + 0.5⌋₊

open Classical in
/-- The `count()` formula as §4.5 of the spec words it: raw estimate
`E = α_m · m² / Σ 2^(−counters[i])`, replaced by linear counting
`m · ln(m / V)` exactly when `E < 5m/2` **and** the number `V` of zero
registers is positive, then rounded to nearest by adding `0.5` and truncating
toward zero. -/
noncomputable def hllCountSpec (m : Nat) (counters : List Nat) : Nat :=
  let E : ℝ := magic_bias_constant m * (m : ℝ) ^ 2 /
    (counters.map (fun (c : Nat) => (2 : ℝ) ^ (-(c : ℤ)))).sum
  let V := (counters.filter (fun c => c = 0)).length
  if E < 5 * (m : ℝ) / 2 ∧ 0 < V then
    ⌊(m : ℝ) * Real.log ((m : ℝ) / (V : ℝ)) + 0.5⌋₊
  else
    ⌊E + 0.5⌋₊

/-! ## cuniq binary driver (cuniq/src/main.rs) -/

/-- `std::io::ErrorKind`, abstracted to the only distinction
`run_with_const_parameters` makes. -/
inductive IoKind where
  | brokenPipe : IoKind
  | otherKind : IoKind
deriving DecidableEq

/-- `line_cardinality::ErrorCause` (count_unique_impl/result.rs). -/
inductive ErrorCause where
  | io : IoKind → ErrorCause
  | sizeCause : Nat → ErrorCause
  | user : ErrorCause
deriving DecidableEq

/-- Observable outcome of one run of the binary: whether a diagnostic line is
printed to stderr, and the process exit code. -/
structure RunOutcome where
  printsDiagnostic : Bool
  exitCode : Nat
deriving DecidableEq

/-- `run_with_const_parameters`, given the `Result` of the selected
count/report routine (`none` models `Ok(())`, `some c` models `Err` with cause
`c`): a broken-pipe I/O error skips the `eprintln!`, every other error prints
one diagnostic line; every `Err` returns `ExitCode::FAILURE` (1), `Ok` returns
`ExitCode::SUCCESS` (0). -/
def run_with_const_parameters (result : Option ErrorCause) : RunOutcome :=
  match result with
  | none => ⟨false, 0⟩
  | some e =>
    match e with
    | ErrorCause.io IoKind.brokenPipe => ⟨false, 1⟩
    | ErrorCause.io IoKind.otherKind => ⟨true, 1⟩
    | ErrorCause.sizeCause _ => ⟨true, 1⟩
    | ErrorCause.user => ⟨true, 1⟩

/-- Modelled from the spec: `bstr::ByteSlice::trim` (the body of the external
`bstr` crate is not part of this repository); §4.2 "strip ASCII whitespace
bytes from both ends".  ASCII whitespace bytes are TAB, LF, VT-excluded FF,
CR and SPACE, matching `u8::is_ascii_whitespace`. -/
def isAsciiWhitespaceByte (b : Nat) : Bool :=
  b == 9 || b == 10 || b == 12 || b == 13 || b == 32

/-- Modelled from the spec: `trim` strips ASCII whitespace from both ends. -/
def trimBytes (l : List Nat) : List Nat :=
  ((l.dropWhile isAsciiWhitespaceByte).reverse.dropWhile isAsciiWhitespaceByte).reverse

/-- Modelled from the spec: per-byte ASCII lowercasing (uppercase `A`–`Z`
maps to lowercase, every other byte — including non-ASCII bytes — passes
through unchanged). -/
def toLowercaseByte (b : Nat) : Nat :=
  if 65 ≤ b ∧ b ≤ 90 then b + 32 else b

/-- Modelled from the spec: `bstr::ByteSlice::to_lowercase_into` writes the
lowercase equivalent of the input into the buffer (§4.2). -/
def toLowercaseBytes (l : List Nat) : List Nat := l.map toLowercaseByte

/-- `preprocess_line::<TRIM, LOWERCASE>`: optionally trim, then, when
lowercasing, clear the scratch buffer, write the transformed bytes into it
and return the buffer; otherwise return the (sub)range of the input.  The
result is the pair (returned line, scratch buffer after the call). -/
def preprocess_line (TRIM LOWERCASE : Bool) (line buffer : List Nat) :
    List Nat × List Nat :=
  let trimmed := if TRIM then trimBytes line else line
  if LOWERCASE then
    let cleared : List Nat := []
    let written := cleared ++ toLowercaseBytes trimmed
    (written, written)
  else
    (trimmed, buffer)

/-- `previous_power_of_2` (main.rs): `0` for `0`, otherwise
`1 << (usize::BITS - n.leading_zeros() - 1)`. -/
def previous_power_of_2 (n : Nat) : Nat :=
  if n = 0 then 0
  else
    let zeros := leading_zeros n
    1 <<< (64 - zeros - 1)

/-- The `Mode::Estimate` branch of `count` (main.rs): with `--size N` the
register count handed to `HyperLogLog::with_line_mapper_and_capacity` is
`previous_power_of_2 (max 16 N)`; without a size the default-capacity
constructor is used. -/
def estimateHll (sizeArg : Option Nat) : Except SizeError HLLState :=
  match sizeArg with
  | some size => with_capacity (previous_power_of_2 (Nat.max 16 size))
  | none => with_capacity DEFAULT_SIZE

/-! ## Spec-side collision bookkeeping for the NearExact estimator (§4.4)

"This estimator under-counts by one for each distinct line whose hash
collides with that of a previously seen distinct line."  The machine below
walks the input once, tracking the distinct lines seen so far and their
distinct hashes, and counts exactly those first occurrences whose hash was
already produced by an earlier distinct line. -/

structure CollisionState where
  seenLines : List (List Nat)
  seenHashes : List Nat
  collisions : Nat

def collisionStep (hash : List Nat → Nat) (s : CollisionState) (line : List Nat) :
    CollisionState :=
  if line ∈ s.seenLines then s
  else if hash line ∈ s.seenHashes then
    ⟨s.seenLines ++ [line], s.seenHashes, s.collisions + 1⟩
  else
    ⟨s.seenLines ++ [line], s.seenHashes ++ [hash line], s.collisions⟩

/-- Number of distinct lines whose hash collides with that of a previously
seen distinct line. -/
def collisionCount (hash : List Nat → Nat) (lines : List (List Nat)) : Nat :=
  (lines.foldl (collisionStep hash) ⟨[], [], 0⟩).collisions

/-! ## Arithmetic bridges for the fuel-limited intrinsics -/

theorem countOnesAux_eq_zero_iff (fuel : Nat) :
    ∀ n, n < 2 ^ fuel → (countOnesAux fuel n = 0 ↔ n = 0) := by
  induction fuel with
  | zero =>
    intro n hn
    interval_cases n
    simp [countOnesAux]
  | succ fuel ih =>
    intro n hn
    have hdiv : n / 2 < 2 ^ fuel := by
      have : 2 ^ (fuel + 1) = 2 ^ fuel * 2 := by ring
      omega
    have := ih (n / 2) hdiv
    simp only [countOnesAux]
    omega

theorem countOnesAux_eq_one_iff (fuel : Nat) :
    ∀ n, n < 2 ^ fuel → (countOnesAux fuel n = 1 ↔ ∃ k, n = 2 ^ k) := by
  induction fuel with
  | zero =>
    intro n hn
    interval_cases n
    simp only [countOnesAux]
    constructor
    · omega
    · rintro ⟨k, hk⟩
      have : 0 < 2 ^ k := Nat.pos_pow_of_pos k (by omega)
      omega
  | succ fuel ih =>
    intro n hn
    have hdiv : n / 2 < 2 ^ fuel := by
      have : 2 ^ (fuel + 1) = 2 ^ fuel * 2 := by ring
      omega
    have hone := ih (n / 2) hdiv
    have hzero := countOnesAux_eq_zero_iff fuel (n / 2) hdiv
    simp only [countOnesAux]
    rcases Nat.even_or_odd n with he | ho
    · have hmod : n % 2 = 0 := Nat.even_iff.mp he
      rw [hmod, Nat.zero_add, hone]
      constructor
      · rintro ⟨k, hk⟩
        refine ⟨k + 1, ?_⟩
        have : n = 2 * (n / 2) := by omega
        rw [this, hk, pow_succ]
        ring
      · rintro ⟨k, hk⟩
        cases k with
        | zero => omega
        | succ k =>
          refine ⟨k, ?_⟩
          have : n = 2 * (n / 2) := by omega
          rw [pow_succ] at hk
          omega
    · have hmod : n % 2 = 1 := Nat.odd_iff.mp ho
      rw [hmod]
      constructor
      · intro h
        have : n / 2 = 0 := hzero.mp (by omega)
        have : n = 1 := by omega
        exact ⟨0, by simpa using this⟩
      · rintro ⟨k, hk⟩
        cases k with
        | zero =>
          have hn1 : n = 1 := by simpa using hk
          subst hn1
          norm_num
          exact (countOnesAux_eq_zero_iff fuel 0 (Nat.pos_pow_of_pos fuel (by omega))).mpr rfl
        | succ k =>
          exfalso
          rw [pow_succ] at hk
          omega

/-- For 64-bit words, `is_power_of_two` decides membership in the powers of
two, as `usize::is_power_of_two` does. -/
theorem is_power_of_two_iff {n : Nat} (hn : n < 2 ^ 64) :
    is_power_of_two n = true ↔ ∃ k, n = 2 ^ k := by
  unfold is_power_of_two count_ones
  rw [beq_iff_eq]
  exact countOnesAux_eq_one_iff 64 n hn

theorem log2Aux_eq_log (fuel : Nat) :
    ∀ n, n < 2 ^ fuel → log2Aux fuel n = Nat.log 2 n := by
  induction fuel with
  | zero =>
    intro n hn
    interval_cases n
    simp [log2Aux]
  | succ fuel ih =>
    intro n hn
    have hdiv : n / 2 < 2 ^ fuel := by
      have : 2 ^ (fuel + 1) = 2 ^ fuel * 2 := by ring
      omega
    simp only [log2Aux]
    by_cases h2 : 2 ≤ n
    · rw [if_pos h2, ih (n / 2) hdiv, Nat.log_of_one_lt_of_le one_lt_two h2]
    · rw [if_neg h2, Nat.log_of_lt (by omega)]

/-- For 64-bit words, `ilog2` is the floor base-2 logarithm. -/
theorem ilog2_eq_log {n : Nat} (hn : n < 2 ^ 64) : ilog2 n = Nat.log 2 n :=
  log2Aux_eq_log 64 n hn

theorem log_two_lt_64 {n : Nat} (hn : n < 2 ^ 64) : Nat.log 2 n < 64 := by
  rcases Nat.eq_zero_or_pos n with h | h
  · subst h; simp
  · exact Nat.log_lt_of_lt_pow (by omega) hn

/-- For nonzero 64-bit words, `bitLen` is one more than the floor log. -/
theorem bitLen_eq {n : Nat} (hn : n < 2 ^ 64) (h0 : n ≠ 0) :
    bitLen n = Nat.log 2 n + 1 := by
  unfold bitLen
  rw [if_neg h0, ilog2_eq_log hn]

theorem leading_zeros_eq {n : Nat} (hn : n < 2 ^ 64) (h0 : n ≠ 0) :
    leading_zeros n = 63 - Nat.log 2 n := by
  unfold leading_zeros
  rw [bitLen_eq hn h0]
  have := log_two_lt_64 hn
  omega

theorem leading_zeros_zero : leading_zeros 0 = 64 := by
  simp [leading_zeros, bitLen]

/-- The key fact behind `previous_power_of_2`: on nonzero 64-bit input it
computes `2 ^ log2 n`. -/
theorem previous_power_of_2_eq {n : Nat} (hn : n < 2 ^ 64) (h0 : n ≠ 0) :
    previous_power_of_2 n = 2 ^ Nat.log 2 n := by
  unfold previous_power_of_2
  rw [if_neg h0]
  simp only [leading_zeros_eq hn h0]
  have hlt := log_two_lt_64 hn
  have heq : 64 - (63 - Nat.log 2 n) - 1 = Nat.log 2 n := by omega
  rw [heq, Nat.shiftLeft_eq, one_mul]

/-! ## Construction and size coercion -/

theorem check_size_ok {m : Nat} (hm : m < 2 ^ 64) (hpow : ∃ k, m = 2 ^ k)
    (h16 : 16 ≤ m) :
    check_size m =
      Except.ok ⟨Nat.log 2 m, 64 - Nat.log 2 m, (2 ^ 64 - 1) >>> Nat.log 2 m⟩ := by
  unfold check_size
  rw [if_neg (by simp [(is_power_of_two_iff hm).mpr hpow]), if_neg (by omega)]
  simp [ilog2_eq_log hm]

theorem with_capacity_ok {m : Nat} (hm : m < 2 ^ 64) (hpow : ∃ k, m = 2 ^ k)
    (h16 : 16 ≤ m) :
    with_capacity m =
      Except.ok ⟨m, Nat.log 2 m, 64 - Nat.log 2 m, (2 ^ 64 - 1) >>> Nat.log 2 m,
        List.replicate m 0⟩ := by
  unfold with_capacity
  rw [check_size_ok hm hpow h16]

theorem check_size_error_iff {m : Nat} (hm : m < 2 ^ 64) :
    (∃ e, check_size m = Except.error e) ↔ (¬ ∃ k, m = 2 ^ k) ∨ m < 16 := by
  rw [← is_power_of_two_iff hm]
  unfold check_size
  by_cases hpow : is_power_of_two m = true
  · by_cases h16 : m < 16 <;> simp [hpow, h16]
  · simp [hpow]

theorem with_capacity_error_iff {m : Nat} (hm : m < 2 ^ 64) :
    (∃ e, with_capacity m = Except.error e) ↔ (¬ ∃ k, m = 2 ^ k) ∨ m < 16 := by
  rw [← check_size_error_iff hm]
  unfold with_capacity
  constructor
  · rintro ⟨e, he⟩
    refine ⟨e, ?_⟩
    rcases hcs : check_size m with e' | info
    · rw [hcs] at he
      simpa using he
    · rw [hcs] at he
      simp at he
  · rintro ⟨e, he⟩
    exact ⟨e, by rw [he]⟩

/-- Claim C5: `with_capacity` (and the `with_line_mapper_and_capacity`
variant it models) returns a `Size` error exactly when the requested size is
not a power of two or is below 16; otherwise it succeeds with `m` registers
all zero; the no-size constructors use `DEFAULT_SIZE = 65536` and never
fail. -/
theorem hll_construction_spec :
    (∀ m, m < 2 ^ 64 →
      ((∃ e, with_capacity m = Except.error e) ↔ (¬ ∃ k, m = 2 ^ k) ∨ m < 16)) ∧
    (∀ m, m < 2 ^ 64 → (∃ k, m = 2 ^ k) → 16 ≤ m →
      ∃ s, with_capacity m = Except.ok s ∧ s.size = m ∧
        s.counters = List.replicate m 0) ∧
    (∃ s, with_capacity DEFAULT_SIZE = Except.ok s ∧ s.size = 65536 ∧
      s.counters = List.replicate 65536 0) := by
  refine ⟨fun m hm => with_capacity_error_iff hm, fun m hm hpow h16 => ?_, ?_⟩
  · exact ⟨_, with_capacity_ok hm hpow h16, rfl, rfl⟩
  · exact ⟨_, with_capacity_ok (by norm_num [DEFAULT_SIZE])
      ⟨16, by norm_num [DEFAULT_SIZE]⟩ (by norm_num [DEFAULT_SIZE]), rfl, rfl⟩

/-- Witness for claim C5 at concrete sizes: 8 is a power of two below 16 and
is rejected; 24 is not a power of two and is rejected; 16 succeeds with 16
zero registers. -/
theorem hll_construction_spec_witness :
    (∃ e, with_capacity 8 = Except.error e) ∧
    (∃ s, with_capacity 16 = Except.ok s ∧ s.size = 16 ∧
      s.counters = List.replicate 16 0) := by
  constructor
  · exact (hll_construction_spec.1 8 (by decide)).mpr (Or.inr (by decide))
  · exact hll_construction_spec.2.1 16 (by decide) ⟨4, by decide⟩ (by decide)

/-- Claim C9: `previous_power_of_2` returns the largest power of two less
than or equal to `n` for `n ≥ 1` and `0` for `n = 0`; consequently the
`Mode::Estimate` branch with `--size N` builds a HyperLogLog whose register
count is `previous_power_of_2 (max 16 N)` (and never hits a `Size` error). -/
theorem previous_power_of_2_spec :
    previous_power_of_2 0 = 0 ∧
    (∀ n, 1 ≤ n → n < 2 ^ 64 →
      (∃ k, previous_power_of_2 n = 2 ^ k) ∧
      previous_power_of_2 n ≤ n ∧
      (∀ k, 2 ^ k ≤ n → 2 ^ k ≤ previous_power_of_2 n)) ∧
    (∀ N, N < 2 ^ 64 →
      ∃ s, estimateHll (some N) = Except.ok s ∧
        s.size = previous_power_of_2 (Nat.max 16 N) ∧
        s.counters.length = previous_power_of_2 (Nat.max 16 N)) := by
  refine ⟨by simp [previous_power_of_2], fun n h1 hn => ?_, fun N hN => ?_⟩
  · have h0 : n ≠ 0 := by omega
    rw [previous_power_of_2_eq hn h0]
    refine ⟨⟨Nat.log 2 n, rfl⟩, Nat.pow_log_le_self 2 h0, fun k hk => ?_⟩
    exact Nat.pow_le_pow_right (by omega) (Nat.le_log_of_pow_le (by omega) hk)
  · set M := Nat.max 16 N with hM
    have hM16 : 16 ≤ M := Nat.le_max_left 16 N
    have hMcases : M = 16 ∨ M = N := by
      rcases Nat.le_total 16 N with h | h
      · exact Or.inr (Nat.max_eq_right h)
      · exact Or.inl (Nat.max_eq_left h)
    have hMlt : M < 2 ^ 64 := by
      have : (16 : Nat) < 2 ^ 64 := by norm_num
      omega
    have hM0 : M ≠ 0 := by omega
    have hp : previous_power_of_2 M = 2 ^ Nat.log 2 M := previous_power_of_2_eq hMlt hM0
    have hplt : previous_power_of_2 M < 2 ^ 64 := by
      have := Nat.pow_log_le_self 2 hM0
      omega
    have hp16 : 16 ≤ previous_power_of_2 M := by
      rw [hp]
      have : 4 ≤ Nat.log 2 M :=
        Nat.le_log_of_pow_le (by omega) (by norm_num at hM16 ⊢; omega)
      calc (16 : Nat) = 2 ^ 4 := by norm_num
      _ ≤ 2 ^ Nat.log 2 M := Nat.pow_le_pow_right (by omega) this
    refine ⟨⟨previous_power_of_2 M, Nat.log 2 (previous_power_of_2 M),
      64 - Nat.log 2 (previous_power_of_2 M),
      (2 ^ 64 - 1) >>> Nat.log 2 (previous_power_of_2 M),
      List.replicate (previous_power_of_2 M) 0⟩, ?_, rfl, by simp⟩
    simpa only [estimateHll] using with_capacity_ok hplt ⟨Nat.log 2 M, hp⟩ hp16

/-- Witness for claim C9 at `n = 90` and `--size 100`. -/
theorem previous_power_of_2_spec_witness :
    (∃ k, previous_power_of_2 90 = 2 ^ k) ∧ previous_power_of_2 90 ≤ 90 ∧
    (2 ^ 6 ≤ 90 → 2 ^ 6 ≤ previous_power_of_2 90) ∧
    (∃ s, estimateHll (some 100) = Except.ok s ∧
      s.size = previous_power_of_2 (Nat.max 16 100)) := by
  have h := previous_power_of_2_spec.2.1 90 (by decide) (by decide)
  have h2 := previous_power_of_2_spec.2.2 100 (by decide)
  exact ⟨h.1, h.2.1, fun _ => h.2.2 6 (by decide),
    h2.elim fun s hs => ⟨s, hs.1, hs.2.1⟩⟩

/-! ## Error dispatch of the binary (claim C2) -/

/-- Counterexample to claim C2 as stated: a broken-pipe write error makes
`run_with_const_parameters` return `ExitCode::FAILURE` (1), not the success
exit code 0 the claim requires (the `match` only skips the `eprintln!`). -/
theorem run_broken_pipe_counterexample :
    (run_with_const_parameters (some (ErrorCause.io IoKind.brokenPipe))).exitCode ≠ 0 := by
  decide

/-- Claim C2 as amended: a broken-pipe stdout error emits no diagnostic but
still exits with the failure code 1; every other error prints a single
diagnostic line and exits 1; a successful run prints no diagnostic and exits
0. -/
theorem run_dispatch_spec :
    run_with_const_parameters none = ⟨false, 0⟩ ∧
    run_with_const_parameters (some (ErrorCause.io IoKind.brokenPipe)) = ⟨false, 1⟩ ∧
    run_with_const_parameters (some (ErrorCause.io IoKind.otherKind)) = ⟨true, 1⟩ ∧
    (∀ n, run_with_const_parameters (some (ErrorCause.sizeCause n)) = ⟨true, 1⟩) ∧
    run_with_const_parameters (some ErrorCause.user) = ⟨true, 1⟩ :=
  ⟨rfl, rfl, rfl, fun _ => rfl, rfl⟩

/-! ## Preprocessor (claim C6) -/

theorem trimBytes_infix_aux (l : List Nat) :
    ∃ pre post, l = pre ++ trimBytes l ++ post := by
  refine ⟨l.takeWhile isAsciiWhitespaceByte,
    ((l.dropWhile isAsciiWhitespaceByte).reverse.takeWhile isAsciiWhitespaceByte).reverse,
    ?_⟩
  have h2 : trimBytes l ++
      ((l.dropWhile isAsciiWhitespaceByte).reverse.takeWhile isAsciiWhitespaceByte).reverse =
      l.dropWhile isAsciiWhitespaceByte := by
    unfold trimBytes
    rw [← List.reverse_append, List.takeWhile_append_dropWhile, List.reverse_reverse]
  calc l = l.takeWhile isAsciiWhitespaceByte ++ l.dropWhile isAsciiWhitespaceByte :=
      (List.takeWhile_append_dropWhile isAsciiWhitespaceByte l).symm
    _ = l.takeWhile isAsciiWhitespaceByte ++ (trimBytes l ++
        ((l.dropWhile isAsciiWhitespaceByte).reverse.takeWhile isAsciiWhitespaceByte).reverse) := by
      rw [h2]
    _ = _ := by rw [List.append_assoc]

/-- Claim C6: with lowercase enabled the preprocessor returns the
ASCII-lowercased (optionally trimmed) line, the returned line is exactly the
scratch buffer after the call, and the buffer contents do not depend on what
the scratch buffer held before (it is cleared first); with lowercase disabled
the scratch buffer is untouched and the result is a contiguous subrange of
the original input; per-byte lowercasing maps only ASCII uppercase, passing
non-ASCII bytes through unchanged. -/
theorem preprocess_line_spec :
    (∀ TRIM line buf,
      (preprocess_line TRIM true line buf).1 =
        toLowercaseBytes (if TRIM then trimBytes line else line) ∧
      (preprocess_line TRIM true line buf).2 = (preprocess_line TRIM true line buf).1 ∧
      (∀ buf', (preprocess_line TRIM true line buf').2 =
        (preprocess_line TRIM true line buf).2)) ∧
    (∀ TRIM line buf,
      (preprocess_line TRIM false line buf).2 = buf ∧
      ∃ pre post, line = pre ++ (preprocess_line TRIM false line buf).1 ++ post) ∧
    (∀ b, 65 ≤ b → b ≤ 90 → toLowercaseByte b = b + 32) ∧
    (∀ b, 127 < b → toLowercaseByte b = b) := by
  refine ⟨fun TRIM line buf => ⟨rfl, rfl, fun buf' => rfl⟩,
    fun TRIM line buf => ⟨rfl, ?_⟩, fun b h1 h2 => by simp [toLowercaseByte, h1, h2],
    fun b hb => by simp [toLowercaseByte]; omega⟩
  show ∃ pre post, line = pre ++ (if TRIM then trimBytes line else line) ++ post
  by_cases ht : TRIM
  · rw [if_pos ht]
    exact trimBytes_infix_aux line
  · exact ⟨[], [], by simp [ht]⟩

/-! ## Counting characterizations for the hash-based estimators -/

theorem exactRun_characterization (ls : List (List Nat)) :
    ∀ s : ExactState,
      (exactRun s ls).mapKeys.toFinset = s.mapKeys.toFinset ∪ ls.toFinset ∧
      (exactRun s ls).count = s.count + (ls.toFinset \ s.mapKeys.toFinset).card := by
  induction ls with
  | nil => intro s; simp [exactRun]
  | cons l ls ih =>
    intro s
    have step : exactRun s (l :: ls) = exactRun (exactCountLine s l) ls := rfl
    rw [step]
    by_cases hl : l ∈ s.mapKeys
    · have hstate : exactCountLine s l = s := by simp [exactCountLine, hl]
      rw [hstate]
      obtain ⟨hkeys, hcount⟩ := ih s
      constructor
      · rw [hkeys, List.toFinset_cons, Finset.union_insert,
          Finset.insert_eq_self.mpr (Finset.mem_union_left _ (List.mem_toFinset.mpr hl))]
      · rw [hcount, List.toFinset_cons,
          Finset.insert_sdiff_of_mem _ (List.mem_toFinset.mpr hl)]
    · have hstate : exactCountLine s l = ⟨s.mapKeys ++ [l], s.count + 1⟩ := by
        simp [exactCountLine, hl]
      rw [hstate]
      obtain ⟨hkeys, hcount⟩ := ih ⟨s.mapKeys ++ [l], s.count + 1⟩
      have hl' : l ∉ s.mapKeys.toFinset := by simpa using hl
      have hkeyset : (s.mapKeys ++ [l]).toFinset = insert l s.mapKeys.toFinset := by
        ext x
        simp [or_comm]
      constructor
      · rw [hkeys]
        simp only [hkeyset, List.toFinset_cons]
        rw [Finset.insert_union, Finset.union_insert]
      · rw [hcount]
        simp only [hkeyset, List.toFinset_cons]
        rw [Finset.sdiff_insert]
        by_cases hmem : l ∈ ls.toFinset
        · have hmem' : l ∈ ls.toFinset \ s.mapKeys.toFinset := Finset.mem_sdiff.mpr ⟨hmem, hl'⟩
          have h1 : insert l ls.toFinset = ls.toFinset := Finset.insert_eq_self.mpr hmem
          have h2 : 1 ≤ (ls.toFinset \ s.mapKeys.toFinset).card :=
            Finset.card_pos.mpr ⟨l, hmem'⟩
          rw [h1, Finset.card_erase_of_mem hmem']
          omega
        · have hmem' : l ∉ ls.toFinset \ s.mapKeys.toFinset := by
            simp [Finset.mem_sdiff, hmem]
          rw [Finset.erase_eq_of_not_mem hmem',
            Finset.insert_sdiff_of_not_mem _ hl',
            Finset.card_insert_of_not_mem hmem']
          omega

theorem nearRun_characterization (hash : List Nat → Nat) (ls : List (List Nat)) :
    ∀ s : NearExactState,
      (nearRun hash s ls).hashes.toFinset = s.hashes.toFinset ∪ (ls.map hash).toFinset ∧
      (nearRun hash s ls).count = s.count + ((ls.map hash).toFinset \ s.hashes.toFinset).card := by
  induction ls with
  | nil => intro s; simp [nearRun]
  | cons l ls ih =>
    intro s
    have step : nearRun hash s (l :: ls) = nearRun hash (nearCountLine hash s l) ls := rfl
    rw [step]
    by_cases hl : hash l ∈ s.hashes
    · have hstate : nearCountLine hash s l = s := by simp [nearCountLine, hl]
      rw [hstate]
      obtain ⟨hkeys, hcount⟩ := ih s
      constructor
      · rw [hkeys, List.map_cons, List.toFinset_cons, Finset.union_insert,
          Finset.insert_eq_self.mpr (Finset.mem_union_left _ (List.mem_toFinset.mpr hl))]
      · rw [hcount, List.map_cons, List.toFinset_cons,
          Finset.insert_sdiff_of_mem _ (List.mem_toFinset.mpr hl)]
    · have hstate : nearCountLine hash s l = ⟨s.hashes ++ [hash l], s.count + 1⟩ := by
        simp [nearCountLine, hl]
      rw [hstate]
      obtain ⟨hkeys, hcount⟩ := ih ⟨s.hashes ++ [hash l], s.count + 1⟩
      have hl' : hash l ∉ s.hashes.toFinset := by simpa using hl
      have hkeyset : (s.hashes ++ [hash l]).toFinset = insert (hash l) s.hashes.toFinset := by
        ext x
        simp [or_comm]
      constructor
      · rw [hkeys]
        simp only [hkeyset, List.map_cons, List.toFinset_cons]
        rw [Finset.insert_union, Finset.union_insert]
      · rw [hcount]
        simp only [hkeyset, List.map_cons, List.toFinset_cons]
        rw [Finset.sdiff_insert]
        by_cases hmem : hash l ∈ (ls.map hash).toFinset
        · have hmem' : hash l ∈ (ls.map hash).toFinset \ s.hashes.toFinset :=
            Finset.mem_sdiff.mpr ⟨hmem, hl'⟩
          have h1 : insert (hash l) (ls.map hash).toFinset = (ls.map hash).toFinset :=
            Finset.insert_eq_self.mpr hmem
          have h2 : 1 ≤ ((ls.map hash).toFinset \ s.hashes.toFinset).card :=
            Finset.card_pos.mpr ⟨hash l, hmem'⟩
          rw [h1, Finset.card_erase_of_mem hmem']
          omega
        · have hmem' : hash l ∉ (ls.map hash).toFinset \ s.hashes.toFinset := by
            simp [Finset.mem_sdiff, hmem]
          rw [Finset.erase_eq_of_not_mem hmem',
            Finset.insert_sdiff_of_not_mem _ hl',
            Finset.card_insert_of_not_mem hmem']
          omega

/-- Processing a line list from a fresh Exact counter counts the distinct
lines. -/
theorem exactRun_empty_count (ls : List (List Nat)) :
    (exactRun ExactState.empty ls).count = ls.toFinset.card := by
  have h := (exactRun_characterization ls ExactState.empty).2
  simpa [ExactState.empty] using h

/-- Processing a line list from a fresh NearExact counter counts the distinct
hash values. -/
theorem nearRun_empty_count (hash : List Nat → Nat) (ls : List (List Nat)) :
    (nearRun hash NearExactState.empty ls).count = (ls.map hash).toFinset.card := by
  have h := (nearRun_characterization hash ls NearExactState.empty).2
  simpa [NearExactState.empty] using h

/-! ## The tokenizer agrees with the spec's segmentation -/

theorem splitOn_ten_ne_nil (bytes : List Nat) : bytes.splitOn 10 ≠ [] :=
  List.splitOnP_ne_nil _ bytes

theorem specSegments_cons_newline (rest : List Nat) :
    specSegments (10 :: rest) = [] :: specSegments rest := by
  unfold specSegments
  have hsplit : (10 :: rest).splitOn 10 = [] :: rest.splitOn 10 := by
    show (10 :: rest).splitOnP (· == 10) = [] :: rest.splitOnP (· == 10)
    rw [List.splitOnP_cons]
    simp
  rw [hsplit]
  obtain ⟨s, t, hst⟩ := List.exists_cons_of_ne_nil (splitOn_ten_ne_nil rest)
  rw [hst]
  by_cases hlast : (s :: t).getLast? = some ([] : List Nat)
  · rw [if_pos (by simpa using hlast), if_pos hlast]
    rfl
  · rw [if_neg (by simpa using hlast), if_neg hlast]

theorem specSegments_cons_other {b : Nat} (hb : b ≠ 10) (rest : List Nat) :
    specSegments (b :: rest) =
      match specSegments rest with
      | [] => [[b]]
      | t :: ts => (b :: t) :: ts := by
  unfold specSegments
  have hsplit : (b :: rest).splitOn 10 = ((rest.splitOn 10).modifyHead (List.cons b)) := by
    show (b :: rest).splitOnP (· == 10) = ((rest.splitOnP (· == 10)).modifyHead (List.cons b))
    rw [List.splitOnP_cons]
    simp [hb]
  rw [hsplit]
  obtain ⟨s, t, hst⟩ := List.exists_cons_of_ne_nil (splitOn_ten_ne_nil rest)
  rw [hst]
  cases t with
  | nil =>
    cases s with
    | nil => simp
    | cons x xs => simp
  | cons t1 t2 =>
    simp only [List.modifyHead]
    have hlast1 : ((b :: s) :: t1 :: t2).getLast? = (t1 :: t2).getLast? := by
      simp [List.getLast?_cons_cons]
    have hlast2 : (s :: t1 :: t2).getLast? = (t1 :: t2).getLast? := by
      simp [List.getLast?_cons_cons]
    rw [hlast1, hlast2]
    by_cases hlast : (t1 :: t2).getLast? = some ([] : List Nat)
    · rw [if_pos hlast, if_pos hlast]
      rfl
    · rw [if_neg hlast, if_neg hlast]

/-- The recursive tokenizer computes exactly the spec's segmentation. -/
theorem tokenize_eq_specSegments (bytes : List Nat) :
    tokenize bytes = specSegments bytes := by
  induction bytes with
  | nil => rfl
  | cons b rest ih =>
    by_cases hb : b = 10
    · subst hb
      rw [specSegments_cons_newline]
      simp [tokenize, ih]
    · rw [specSegments_cons_other hb]
      simp only [tokenize, if_neg hb, ih]

/-- Claim C1: for every byte input, the Exact estimator driven by
`count_unique_in_bytes` reports the number of distinct byte-sequences between
`\n` boundaries, where a trailing non-terminated segment counts and no
zero-length tail is emitted after a final `\n`; the emitted token list is
exactly the spec's segmentation. -/
theorem exact_count_unique_in_bytes_spec (bytes : List Nat) :
    (exactCountUniqueInBytes ExactState.empty bytes).count =
      (specSegments bytes).toFinset.card ∧
    tokenize bytes = specSegments bytes := by
  refine ⟨?_, tokenize_eq_specSegments bytes⟩
  unfold exactCountUniqueInBytes
  rw [exactRun_empty_count, tokenize_eq_specSegments]

/-! ## Order independence (claim C7) -/

theorem getD_set_self (l : List Nat) (i v : Nat) :
    (l.set i v).getD i 0 = if i < l.length then v else 0 := by
  by_cases h : i < l.length
  · rw [if_pos h]
    rw [List.getD_eq_getElem?_getD, List.getElem?_set_self (by simpa using h)]
    rfl
  · rw [if_neg h, List.set_eq_of_length_le (by omega), List.getD_eq_getElem?_getD,
      List.getElem?_eq_none (by omega)]
    rfl

theorem getD_set_other (l : List Nat) {i j : Nat} (h : i ≠ j) (v : Nat) :
    (l.set i v).getD j 0 = l.getD j 0 := by
  rw [List.getD_eq_getElem?_getD, List.getElem?_set_ne h, ← List.getD_eq_getElem?_getD]

theorem hllCountLine_comm (hash : List Nat → Nat) (s : HLLState)
    (l₁ l₂ : List Nat) :
    hllCountLine hash (hllCountLine hash s l₁) l₂ =
      hllCountLine hash (hllCountLine hash s l₂) l₁ := by
  unfold hllCountLine left_bits right_bits
  simp only
  by_cases hidx : hash l₁ >>> s.shift_bits = hash l₂ >>> s.shift_bits
  · rw [hidx]
    set i := hash l₂ >>> s.shift_bits
    set r₁ := leading_zeros (hash l₁ &&& s.mask) + 1 - s.bits
    set r₂ := leading_zeros (hash l₂ &&& s.mask) + 1 - s.bits
    by_cases hlen : i < s.counters.length
    · congr 1
      rw [List.set_set, List.set_set, getD_set_self, getD_set_self,
        if_pos hlen, if_pos hlen]
      rw [max_assoc, max_comm r₁ r₂, ← max_assoc]
    · have h1 : s.counters.set i (s.counters.getD i 0 ⊔ r₁) = s.counters :=
        List.set_eq_of_length_le (by omega)
      have h2 : s.counters.set i (s.counters.getD i 0 ⊔ r₂) = s.counters :=
        List.set_eq_of_length_le (by omega)
      congr 1
      simp only [h1, h2]
  · set i₁ := hash l₁ >>> s.shift_bits
    set i₂ := hash l₂ >>> s.shift_bits
    congr 1
    rw [getD_set_other _ hidx, getD_set_other _ (Ne.symm hidx),
      List.set_comm _ _ _ hidx]

/-- Claim C7: permuting the input lines leaves the Exact and NearExact
`count()` unchanged and leaves the HyperLogLog state (hence its register
vector and `count()`) unchanged. -/
theorem order_independence_spec (hash : List Nat → Nat) (ls ls' : List (List Nat))
    (hperm : ls.Perm ls') :
    (∀ s : ExactState, (exactRun s ls).count = (exactRun s ls').count) ∧
    (∀ s : NearExactState, (nearRun hash s ls).count = (nearRun hash s ls').count) ∧
    (∀ s : HLLState, hllRun hash s ls = hllRun hash s ls') ∧
    (∀ s : HLLState,
      (hllRun hash s ls).counters = (hllRun hash s ls').counters ∧
      hllCount (hllRun hash s ls) = hllCount (hllRun hash s ls')) := by
  have hfin : ls.toFinset = ls'.toFinset :=
    Finset.ext fun x => by simp [List.mem_toFinset, hperm.mem_iff]
  have hmapfin : (ls.map hash).toFinset = (ls'.map hash).toFinset :=
    Finset.ext fun x => by simp [List.mem_toFinset, (hperm.map hash).mem_iff]
  have hhll : ∀ s : HLLState, hllRun hash s ls = hllRun hash s ls' := by
    intro s
    exact hperm.foldl_eq' (fun x _ y _ z => hllCountLine_comm hash z x y) s
  refine ⟨fun s => ?_, fun s => ?_, hhll, fun s => by rw [hhll s]; exact ⟨rfl, rfl⟩⟩
  · rw [(exactRun_characterization ls s).2, (exactRun_characterization ls' s).2, hfin]
  · rw [(nearRun_characterization hash ls s).2, (nearRun_characterization hash ls' s).2,
      hmapfin]

/-- Witness for claim C7 on the two-line permutation `[[0], [1]] ~ [[1], [0]]`
with the constant-zero hash. -/
theorem order_independence_spec_witness :
    (exactRun ExactState.empty [[0], [1]]).count =
      (exactRun ExactState.empty [[1], [0]]).count ∧
    (nearRun (fun _ => 0) NearExactState.empty [[0], [1]]).count =
      (nearRun (fun _ => 0) NearExactState.empty [[1], [0]]).count := by
  have h := order_independence_spec (fun _ => 0) [[0], [1]] [[1], [0]] (by decide)
  exact ⟨h.1 ExactState.empty, h.2.1 NearExactState.empty⟩

/-! ## Exact vs NearExact (claim C8) -/

theorem collisionFold_characterization (hash : List Nat → Nat) (ls : List (List Nat)) :
    ∀ s : CollisionState,
      s.seenHashes.toFinset = s.seenLines.toFinset.image hash →
      s.collisions + s.seenHashes.toFinset.card = s.seenLines.toFinset.card →
      (ls.foldl (collisionStep hash) s).seenLines.toFinset =
        s.seenLines.toFinset ∪ ls.toFinset ∧
      (ls.foldl (collisionStep hash) s).seenHashes.toFinset =
        (s.seenLines.toFinset ∪ ls.toFinset).image hash ∧
      (ls.foldl (collisionStep hash) s).collisions +
        ((ls.foldl (collisionStep hash) s).seenHashes.toFinset).card =
        (s.seenLines.toFinset ∪ ls.toFinset).card := by
  induction ls with
  | nil =>
    intro s h1 h2
    refine ⟨by simp, by simpa using h1, by simpa using h2⟩
  | cons l ls ih =>
    intro s h1 h2
    have step : (l :: ls).foldl (collisionStep hash) s =
        ls.foldl (collisionStep hash) (collisionStep hash s l) := rfl
    rw [step]
    by_cases hl : l ∈ s.seenLines
    · have hstate : collisionStep hash s l = s := by simp [collisionStep, hl]
      rw [hstate]
      obtain ⟨j1, j2, j3⟩ := ih s h1 h2
      have hunion : s.seenLines.toFinset ∪ (l :: ls).toFinset =
          s.seenLines.toFinset ∪ ls.toFinset := by
        rw [List.toFinset_cons, Finset.union_insert,
          Finset.insert_eq_self.mpr (Finset.mem_union_left _ (List.mem_toFinset.mpr hl))]
      rw [hunion]
      exact ⟨j1, j2, j3⟩
    · have hlfin : l ∉ s.seenLines.toFinset := by simpa using hl
      have hlines : (s.seenLines ++ [l]).toFinset = insert l s.seenLines.toFinset := by
        ext x
        simp [or_comm]
      have hunion : s.seenLines.toFinset ∪ (l :: ls).toFinset =
          insert l s.seenLines.toFinset ∪ ls.toFinset := by
        rw [List.toFinset_cons, Finset.union_insert, Finset.insert_union]
      by_cases hh : hash l ∈ s.seenHashes
      · have hstate : collisionStep hash s l =
            ⟨s.seenLines ++ [l], s.seenHashes, s.collisions + 1⟩ := by
          simp [collisionStep, hl, hh]
        rw [hstate]
        have hhfin : hash l ∈ s.seenLines.toFinset.image hash := by
          rw [← h1]; simpa using hh
        have k1 : (⟨s.seenLines ++ [l], s.seenHashes, s.collisions + 1⟩ :
            CollisionState).seenHashes.toFinset =
            (⟨s.seenLines ++ [l], s.seenHashes, s.collisions + 1⟩ :
            CollisionState).seenLines.toFinset.image hash := by
          show s.seenHashes.toFinset = (s.seenLines ++ [l]).toFinset.image hash
          rw [hlines, Finset.image_insert, Finset.insert_eq_self.mpr hhfin, h1]
        have k2 : (⟨s.seenLines ++ [l], s.seenHashes, s.collisions + 1⟩ :
            CollisionState).collisions +
            (⟨s.seenLines ++ [l], s.seenHashes, s.collisions + 1⟩ :
            CollisionState).seenHashes.toFinset.card =
            (⟨s.seenLines ++ [l], s.seenHashes, s.collisions + 1⟩ :
            CollisionState).seenLines.toFinset.card := by
          show s.collisions + 1 + s.seenHashes.toFinset.card =
            (s.seenLines ++ [l]).toFinset.card
          rw [hlines, Finset.card_insert_of_not_mem hlfin]
          omega
        obtain ⟨j1, j2, j3⟩ := ih _ k1 k2
        rw [hunion]
        exact ⟨by simpa [hlines] using j1, by simpa [hlines] using j2,
          by simpa [hlines] using j3⟩
      · have hstate : collisionStep hash s l =
            ⟨s.seenLines ++ [l], s.seenHashes ++ [hash l], s.collisions⟩ := by
          simp [collisionStep, hl, hh]
        rw [hstate]
        have hhfin : hash l ∉ s.seenHashes.toFinset := by simpa using hh
        have hhashes : (s.seenHashes ++ [hash l]).toFinset =
            insert (hash l) s.seenHashes.toFinset := by
          ext x
          simp [or_comm]
        have k1 : (⟨s.seenLines ++ [l], s.seenHashes ++ [hash l], s.collisions⟩ :
            CollisionState).seenHashes.toFinset =
            (⟨s.seenLines ++ [l], s.seenHashes ++ [hash l], s.collisions⟩ :
            CollisionState).seenLines.toFinset.image hash := by
          show (s.seenHashes ++ [hash l]).toFinset = (s.seenLines ++ [l]).toFinset.image hash
          rw [hlines, hhashes, Finset.image_insert, h1]
        have k2 : (⟨s.seenLines ++ [l], s.seenHashes ++ [hash l], s.collisions⟩ :
            CollisionState).collisions +
            (⟨s.seenLines ++ [l], s.seenHashes ++ [hash l], s.collisions⟩ :
            CollisionState).seenHashes.toFinset.card =
            (⟨s.seenLines ++ [l], s.seenHashes ++ [hash l], s.collisions⟩ :
            CollisionState).seenLines.toFinset.card := by
          show s.collisions + (s.seenHashes ++ [hash l]).toFinset.card =
            (s.seenLines ++ [l]).toFinset.card
          rw [hlines, hhashes, Finset.card_insert_of_not_mem hlfin,
            Finset.card_insert_of_not_mem hhfin]
          omega
        obtain ⟨j1, j2, j3⟩ := ih _ k1 k2
        rw [hunion]
        exact ⟨by simpa [hlines] using j1, by simpa [hlines] using j2,
          by simpa [hlines] using j3⟩

/-- Claim C8: on the same line sequence, the Exact count dominates the
NearExact count; they are equal when no two distinct processed lines share a
64-bit hash; and the NearExact count plus the number of distinct lines whose
hash collides with a previously seen distinct line equals the Exact count
(so NearExact under-counts by exactly that number). -/
theorem exact_near_relation_spec (hash : List Nat → Nat) (ls : List (List Nat)) :
    (nearRun hash NearExactState.empty ls).count ≤
      (exactRun ExactState.empty ls).count ∧
    ((∀ x ∈ ls, ∀ y ∈ ls, hash x = hash y → x = y) →
      (nearRun hash NearExactState.empty ls).count =
        (exactRun ExactState.empty ls).count) ∧
    (nearRun hash NearExactState.empty ls).count + collisionCount hash ls =
      (exactRun ExactState.empty ls).count := by
  have hmap : (ls.map hash).toFinset = ls.toFinset.image hash := by
    ext x
    simp
  rw [exactRun_empty_count, nearRun_empty_count, hmap]
  refine ⟨Finset.card_image_le, fun hinj => ?_, ?_⟩
  · exact Finset.card_image_of_injOn fun x hx y hy h =>
      hinj x (List.mem_toFinset.mp hx) y (List.mem_toFinset.mp hy) h
  · have h := collisionFold_characterization hash ls ⟨[], [], 0⟩ (by simp) (by simp)
    obtain ⟨j1, j2, j3⟩ := h
    unfold collisionCount
    have hempty : (⟨[], [], 0⟩ : CollisionState).seenLines.toFinset = ∅ := rfl
    rw [hempty] at j1 j2 j3
    simp only [Finset.empty_union] at j1 j2 j3
    rw [← j3, j2]
    omega

/-- Witness for claim C8: the identity-on-first-byte hash is injective on the
two distinct one-byte lines, so the NearExact count matches the Exact count
there. -/
theorem exact_near_relation_spec_witness :
    (nearRun (fun l => l.headD 0) NearExactState.empty [[3], [5], [3]]).count =
      (exactRun ExactState.empty [[3], [5], [3]]).count := by
  have h := exact_near_relation_spec (fun l => l.headD 0) [[3], [5], [3]]
  refine h.2.1 ?_
  decide

/-- Witness for claim C6 at concrete bytes: `A` lowercases to `a`, byte 200
passes through, and with lowercasing disabled the scratch buffer is
untouched. -/
theorem preprocess_line_spec_witness :
    toLowercaseByte 65 = 65 + 32 ∧ toLowercaseByte 200 = 200 ∧
    (preprocess_line true false [32, 70, 32] [9]).2 = [9] := by
  exact ⟨preprocess_line_spec.2.2.1 65 (by decide) (by decide),
    preprocess_line_spec.2.2.2 200 (by decide),
    (preprocess_line_spec.2.1 true [32, 70, 32] [9]).1⟩

/-! ## HyperLogLog register invariant (claim C3) -/

theorem foldr_max_le {L : List Nat} {c : Nat} (h : ∀ x ∈ L, x ≤ c) :
    L.foldr max 0 ≤ c := by
  induction L with
  | nil => simp
  | cons x xs ih =>
    simp only [List.foldr_cons]
    have hx := h x (by simp)
    have hxs := ih fun y hy => h y (by simp [hy])
    omega

theorem bucket_lt {h b : Nat} (hh : h < 2 ^ 64) (hb : b ≤ 64) :
    h >>> (64 - b) < 2 ^ b := by
  rw [Nat.shiftRight_eq_div_pow]
  apply Nat.div_lt_iff_lt_mul (Nat.pos_pow_of_pos _ (by omega)) |>.mpr
  calc h < 2 ^ 64 := hh
  _ = 2 ^ b * 2 ^ (64 - b) := by rw [← pow_add]; congr 1; omega

theorem hllRun_getD_general (hash : List Nat → Nat)
    (b : Nat) (ls : List (List Nat)) :
    ∀ s : HLLState, s.shift_bits = 64 - b → s.counters.length = 2 ^ b →
      ∀ i, i < 2 ^ b →
      (hllRun hash s ls).counters.getD i 0 =
        max (s.counters.getD i 0)
          (((ls.filter (fun l => hash l >>> (64 - b) == i)).map
            (fun l => leading_zeros (hash l &&& s.mask) + 1 - s.bits)).foldr max 0) := by
  induction ls with
  | nil =>
    intro s hshift hlen i hi
    simp [hllRun]
  | cons l ls ih =>
    intro s hshift hlen i hi
    have step : hllRun hash s (l :: ls) = hllRun hash (hllCountLine hash s l) ls := rfl
    rw [step]
    have hfields : (hllCountLine hash s l).shift_bits = 64 - b ∧
        (hllCountLine hash s l).counters.length = 2 ^ b ∧
        (hllCountLine hash s l).mask = s.mask ∧
        (hllCountLine hash s l).bits = s.bits := by
      refine ⟨hshift, ?_, rfl, rfl⟩
      simp [hllCountLine, hlen]
    have ihs := ih (hllCountLine hash s l) hfields.1 hfields.2.1 i hi
    rw [hfields.2.2.1, hfields.2.2.2] at ihs
    rw [ihs]
    have hidx : left_bits s (hash l) = hash l >>> (64 - b) := by
      rw [left_bits, hshift]
    by_cases hbucket : hash l >>> (64 - b) = i
    · have hset : (hllCountLine hash s l).counters.getD i 0 =
          max (s.counters.getD i 0)
            (leading_zeros (right_bits s (hash l)) + 1 - s.bits) := by
        show (s.counters.set (left_bits s (hash l)) _).getD i 0 = _
        rw [hidx, hbucket, getD_set_self, if_pos (by omega)]
      rw [hset]
      have hfilter : (l :: ls).filter (fun x => hash x >>> (64 - b) == i) =
          l :: ls.filter (fun x => hash x >>> (64 - b) == i) := by
        rw [List.filter_cons_of_pos (by simpa using hbucket)]
      rw [hfilter, List.map_cons, List.foldr_cons, right_bits]
      rw [max_assoc]
    · have hset : (hllCountLine hash s l).counters.getD i 0 = s.counters.getD i 0 := by
        show (s.counters.set (left_bits s (hash l)) _).getD i 0 = _
        rw [hidx, getD_set_other _ hbucket]
      rw [hset]
      have hfilter : (l :: ls).filter (fun x => hash x >>> (64 - b) == i) =
          ls.filter (fun x => hash x >>> (64 - b) == i) := by
        rw [List.filter_cons_of_neg (by simpa using hbucket)]
      rw [hfilter]

/-- Claim C3: after any sequence of `count_line` calls on a freshly
constructed HyperLogLog with `m = 2^b` registers (`b ≥ 4`), register `i`
holds the maximum over processed lines whose hash has top `b` bits equal to
`i` of `leading_zeros(h & mask) + 1 - b`; every register value fits in 8
bits, and each `count_line` call leaves every register non-decreasing. -/
theorem hll_register_spec (hash : List Nat → Nat) (_hh : ∀ l, hash l < 2 ^ 64)
    (b m : Nat) (hb4 : 4 ≤ b) (hb64 : b < 64) (hm : m = 2 ^ b)
    (s₀ : HLLState) (hs : with_capacity m = Except.ok s₀) (ls : List (List Nat)) :
    (∀ i, i < m →
      (hllRun hash s₀ ls).counters.getD i 0 =
        ((ls.filter (fun l => hash l >>> (64 - b) == i)).map
          (fun l => leading_zeros (hash l &&& ((2 ^ 64 - 1) >>> b)) + 1 - b)).foldr max 0) ∧
    (∀ i, i < m → (hllRun hash s₀ ls).counters.getD i 0 < 256) ∧
    (∀ s : HLLState, ∀ line i,
      s.counters.getD i 0 ≤ (hllCountLine hash s line).counters.getD i 0) := by
  have hmlt : m < 2 ^ 64 := by
    rw [hm]
    exact Nat.pow_lt_pow_right (by omega) hb64
  have hm16 : 16 ≤ m := by
    rw [hm]
    calc (16 : Nat) = 2 ^ 4 := by norm_num
    _ ≤ 2 ^ b := Nat.pow_le_pow_right (by omega) hb4
  have hlog : Nat.log 2 m = b := by rw [hm, Nat.log_pow one_lt_two]
  have hs₀ : s₀ = ⟨m, b, 64 - b, (2 ^ 64 - 1) >>> b, List.replicate m 0⟩ := by
    rw [with_capacity_ok hmlt ⟨b, hm⟩ hm16, hlog] at hs
    exact (Except.ok.inj hs).symm
  have hchar : ∀ i, i < m →
      (hllRun hash s₀ ls).counters.getD i 0 =
        ((ls.filter (fun l => hash l >>> (64 - b) == i)).map
          (fun l => leading_zeros (hash l &&& ((2 ^ 64 - 1) >>> b)) + 1 - b)).foldr max 0 := by
    intro i hi
    have h := hllRun_getD_general hash b ls s₀
      (by rw [hs₀]) (by rw [hs₀]; simpa using hm) i (by rw [← hm]; exact hi)
    rw [h, hs₀]
    simp [List.getD_eq_getElem?_getD]
  refine ⟨hchar, fun i hi => ?_, fun s line i => ?_⟩
  · rw [hchar i hi]
    have hle : ∀ x ∈ (ls.filter (fun l => hash l >>> (64 - b) == i)).map
        (fun l => leading_zeros (hash l &&& ((2 ^ 64 - 1) >>> b)) + 1 - b), x ≤ 65 := by
      intro x hx
      obtain ⟨l, _, hval⟩ := List.mem_map.mp hx
      have : leading_zeros (hash l &&& ((2 ^ 64 - 1) >>> b)) ≤ 64 := by
        unfold leading_zeros
        omega
      omega
    have := foldr_max_le hle
    omega
  · show s.counters.getD i 0 ≤ (s.counters.set (left_bits s (hash line)) _).getD i 0
    by_cases hbucket : left_bits s (hash line) = i
    · rw [hbucket]
      by_cases hlen : i < s.counters.length
      · rw [getD_set_self, if_pos hlen]
        exact le_max_left _ _
      · rw [List.set_eq_of_length_le (by omega)]
    · rw [getD_set_other _ hbucket]

/-- Witness for claim C3 with the constant hash 3, 16 registers and the
single line `[9]`. -/
theorem hll_register_spec_witness :
    (hllRun (fun _ => 3) ⟨16, 4, 60, (2 ^ 64 - 1) >>> 4, List.replicate 16 0⟩
        [[9]]).counters.getD 0 0 =
      (([[9]].filter (fun l => (fun _ : List Nat => 3) l >>> (64 - 4) == 0)).map
        (fun l => leading_zeros ((fun _ : List Nat => 3) l &&& ((2 ^ 64 - 1) >>> 4)) + 1 - 4)).foldr
        max 0 ∧
    (hllRun (fun _ => 3) ⟨16, 4, 60, (2 ^ 64 - 1) >>> 4, List.replicate 16 0⟩
        [[9]]).counters.getD 0 0 < 256 := by
  have h := hll_register_spec (fun _ => 3) (fun l => by norm_num) 4 16 (by decide)
    (by decide) (by decide) ⟨16, 4, 60, (2 ^ 64 - 1) >>> 4, List.replicate 16 0⟩
    (by rfl) [[9]]
  exact ⟨h.1 0 (by decide), h.2.1 0 (by decide)⟩

/-! ## The count formula (claims C4 and C10) -/

theorem magic_bias_constant_lt (size : Nat) : magic_bias_constant size < 5 / 2 := by
  unfold magic_bias_constant
  split_ifs <;> try norm_num
  have hd : (1 : ℝ) ≤ 1 + 1.079 / (size : ℝ) := by
    have : (0 : ℝ) ≤ 1.079 / (size : ℝ) :=
      div_nonneg (by norm_num) (Nat.cast_nonneg size)
    linarith
  have : (0.7213 : ℝ) / (1 + 1.079 / (size : ℝ)) ≤ 0.7213 :=
    div_le_self (by norm_num) hd
  linarith

theorem magic_bias_constant_pos (size : Nat) : 0 < magic_bias_constant size := by
  unfold magic_bias_constant
  split_ifs <;> try norm_num
  have : (0 : ℝ) ≤ 1.079 / (size : ℝ) :=
    div_nonneg (by norm_num) (Nat.cast_nonneg size)
  norm_num at this ⊢
  linarith

/-- Claim C4: `HyperLogLog::count` computes exactly the spec's formula: the
raw estimate `E = α_m · m² / Σ 2^(−counters[i])` replaced by linear counting
`m · ln(m / V)` precisely when `E < 5m/2` and the zero-register count `V` is
positive, rounded to nearest by adding `0.5` and truncating toward zero. -/
theorem hll_count_formula_spec (s : HLLState) :
    hllCount s = hllCountSpec s.size s.counters := by
  unfold hllCount hllCountSpec
  simp only []
  set sum := ((s.counters.map (fun (value : Nat) => (2 : ℝ) ^ (-(value : ℤ)))).sum : ℝ) with hsum
  set V := ((s.counters.filter (fun c => c = 0)).length : Nat) with hV
  set sf := ((s.size : ℝ)) with hsf
  have hEeq : magic_bias_constant s.size * sf * sf * (1 / sum) =
      magic_bias_constant s.size * sf ^ 2 / sum := by ring
  have hthr : sf * 5 / 2 = 5 * sf / 2 := by ring
  by_cases h1 : magic_bias_constant s.size * sf * sf * (1 / sum) < sf * 5 / 2
  · have h1' : magic_bias_constant s.size * sf ^ 2 / sum < 5 * sf / 2 := by
      rw [← hEeq, ← hthr]; exact h1
    rw [if_pos h1]
    by_cases h2 : V = 0
    · rw [if_pos h2, if_neg (by simp [h2]), hEeq]
    · rw [if_neg h2, if_pos ⟨h1', by omega⟩]
  · have h1' : ¬ magic_bias_constant s.size * sf ^ 2 / sum < 5 * sf / 2 := by
      rw [← hEeq, ← hthr]; exact h1
    rw [if_neg h1, if_neg (by rintro ⟨hc, _⟩; exact h1' hc), hEeq]

theorem hllCount_all_zero (s : HLLState) (h16 : 16 ≤ s.size)
    (hzero : s.counters = List.replicate s.size 0) : hllCount s = 0 := by
  unfold hllCount
  simp only []
  have hm0 : (0 : ℝ) < (s.size : ℝ) := by
    have : 0 < s.size := by omega
    exact_mod_cast this
  have hsum : ((s.counters.map (fun (value : Nat) => (2 : ℝ) ^ (-(value : ℤ)))).sum : ℝ) =
      (s.size : ℝ) := by
    rw [hzero, List.map_replicate]
    simp
  rw [hsum]
  have hcount : magic_bias_constant s.size * (s.size : ℝ) * (s.size : ℝ) *
      (1 / (s.size : ℝ)) = magic_bias_constant s.size * (s.size : ℝ) := by
    field_simp
  rw [hcount]
  have hlt : magic_bias_constant s.size * (s.size : ℝ) < (s.size : ℝ) * 5 / 2 := by
    have h := magic_bias_constant_lt s.size
    calc magic_bias_constant s.size * (s.size : ℝ) < 5 / 2 * (s.size : ℝ) :=
        mul_lt_mul_of_pos_right h hm0
    _ = (s.size : ℝ) * 5 / 2 := by ring
  rw [if_pos hlt]
  have hzeros : (s.counters.filter (fun value => value = 0)).length = s.size := by
    rw [hzero]
    rw [List.filter_replicate]
    simp
  rw [hzeros]
  rw [if_neg (by omega)]
  have hdiv : (s.size : ℝ) / ((s.size : Nat) : ℝ) = 1 := div_self (by positivity)
  rw [hdiv, Real.log_one, mul_zero, zero_add]
  rw [Nat.floor_eq_zero]
  norm_num

/-- Claim C10: a HyperLogLog whose registers are all zero — freshly
constructed with any valid size, or after `reset()` — returns `count() = 0`:
the raw estimate `α_m · m` is below the `5m/2` threshold and linear counting
with all `m` registers zero gives `m · ln(m/m) = 0`. -/
theorem hll_zero_registers_count_spec (m : Nat) (hpow : ∃ k, m = 2 ^ k)
    (h16 : 16 ≤ m) (hmlt : m < 2 ^ 64) :
    (∀ s, with_capacity m = Except.ok s → hllCount s = 0) ∧
    (∀ t : HLLState, t.size = m → t.counters.length = m →
      hllCount (hllReset t) = 0) := by
  constructor
  · intro s hs
    rw [with_capacity_ok hmlt hpow h16] at hs
    have hseq := (Except.ok.inj hs).symm
    apply hllCount_all_zero
    · rw [hseq]
      exact h16
    · rw [hseq]
  · intro t hsize hlen
    apply hllCount_all_zero
    · show 16 ≤ t.size
      omega
    · show List.replicate t.counters.length 0 = List.replicate t.size 0
      rw [hlen, hsize]

/-- Witness for claim C10 at the minimal valid size 16. -/
theorem hll_zero_registers_count_spec_witness :
    hllCount ⟨16, 4, 60, (2 ^ 64 - 1) >>> 4, List.replicate 16 0⟩ = 0 ∧
    hllCount (hllReset ⟨16, 4, 60, (2 ^ 64 - 1) >>> 4, List.replicate 16 7⟩) = 0 := by
  have h := hll_zero_registers_count_spec 16 ⟨4, by decide⟩ (by decide) (by decide)
  exact ⟨h.1 ⟨16, 4, 60, (2 ^ 64 - 1) >>> 4, List.replicate 16 0⟩ (by rfl),
    h.2 ⟨16, 4, 60, (2 ^ 64 - 1) >>> 4, List.replicate 16 7⟩ rfl (by decide)⟩

end Cuniq
